import Mathlib

/-!
Shallow embedding of `tools/sofa_to_compact_hrir.py`.

Modelling conventions:
* Python/numpy floating-point sample values are modelled as exact rationals
  (`ℚ`); casts such as `astype(np.float32)` / `astype(np.float64)` are the
  identity on this model and are noted where they occur in the source.
* numpy arrays are rectangular nested lists; an array's trailing dimensions
  are read off from the nesting, as numpy's `shape` does.
* Failures raised by the Python runtime (`ValueError` from shape validation,
  `ZeroDivisionError` from float division by zero, `ValueError` from
  `np.max` on a zero-size array, `IndexError` from an out-of-range row
  access) are modelled with `Except Err`.
* The output file is modelled as `Option (List Nat)`: `none` or the previous
  content before the run, `some bytes` once `convert` has written it.
-/

/-- Error conditions the Python code can raise while converting. -/
inductive Err where
  | shapeSourcePos
  | shapeIR
  | zeroDivision
  | zeroSizeMax
  | indexError
deriving DecidableEq, Repr

/-- Python 3 `round` / numpy `np.round` on a rational: round half to even. -/
def pyRound (q : ℚ) : ℤ :=
  if q - (⌊q⌋ : ℚ) < 1/2 then ⌊q⌋
  else if 1/2 < q - (⌊q⌋ : ℚ) then ⌊q⌋ + 1
  else if ⌊q⌋ % 2 = 0 then ⌊q⌋ else ⌊q⌋ + 1

/-- Python float `%` (sign follows the divisor): `a - b * ⌊a / b⌋`. -/
def pyFmod (a b : ℚ) : ℚ := a - b * (⌊a / b⌋ : ℚ)

/-- numpy-style indexing: element `n` of `l`, defaulting to `d`. -/
def nthD {α : Type} (l : List α) (n : Nat) (d : α) : α := (l.get? n).getD d

/-- Source: `_bin_key`, line `az_wrapped = ((az + 180.0) % 360.0) - 180.0`. -/
def wrapAz (az : ℚ) : ℚ := pyFmod (az + 180) 360 - 180

/-- Source: `_bin_key(az, el, az_step, el_step)`.  A zero step raises
`ZeroDivisionError` in Python (`az_wrapped / az_step` with `az_step == 0.0`). -/
def binKeyE (az el azStep elStep : ℚ) : Except Err (Int × Int) :=
  if azStep = 0 ∨ elStep = 0 then .error .zeroDivision
  else .ok (pyRound (wrapAz az / azStep), pyRound (el / elStep))

/-- The pure bin-key formula of `_bin_key` (meaningful when both steps are
nonzero, where it agrees with `binKeyE`). -/
def bkey (azStep elStep az el : ℚ) : Int × Int :=
  (pyRound (wrapAz az / azStep), pyRound (el / elStep))

/-- Source: `_resample_1d`, `np.interp(t, arange(n), x)` at one coordinate
`t`: clamped at the domain edges, piecewise linear inside. -/
def interpAt (xs : List ℚ) (t : ℚ) : ℚ :=
  if t ≤ 0 then nthD xs 0 0
  else if ((xs.length : ℚ) - 1) ≤ t then nthD xs (xs.length - 1) 0
  else
    nthD xs (⌊t⌋).toNat 0 +
      (t - ((⌊t⌋).toNat : ℚ)) * (nthD xs ((⌊t⌋).toNat + 1) 0 - nthD xs (⌊t⌋).toNat 0)

/-- Source: `np.linspace(0.0, n - 1.0, num = outLen)` at index `k`. -/
def linspaceAt (n outLen k : Nat) : ℚ :=
  if outLen ≤ 1 then 0
  else (k : ℚ) * ((n : ℚ) - 1) / ((outLen : ℚ) - 1)

/-- Source: `_resample_1d(x, src_sr, dst_sr)`.  The `astype(np.float32)` /
`astype(np.float64)` casts are the identity on the rational model.
`float(dst_sr) / float(src_sr)` raises `ZeroDivisionError` when
`src_sr == 0` (only reachable when the rates differ and `x` is nonempty). -/
def resample1d (xs : List ℚ) (srcSr dstSr : Int) : Except Err (List ℚ) :=
  if srcSr = dstSr then .ok xs
  else if xs.length = 0 then .ok xs
  else if srcSr = 0 then .error .zeroDivision
  else
    .ok ((List.range (max 1 (pyRound ((xs.length : ℚ) * ((dstSr : ℚ) / (srcSr : ℚ))))).toNat).map
      (fun k => interpAt xs
        (linspaceAt xs.length
          (max 1 (pyRound ((xs.length : ℚ) * ((dstSr : ℚ) / (srcSr : ℚ))))).toNat k)))

/-- The `1e-9` floor of `_normalize_pair`, taken as an exact rational. -/
def epsQ : ℚ := 1 / 1000000000

/-- Source: `np.max` over a 1-D array; raises `ValueError` on a zero-size
array. -/
def npMax (l : List ℚ) : Except Err ℚ :=
  match l with
  | [] => .error .zeroSizeMax
  | x :: xs => .ok (xs.foldl max x)

/-- Source: `_normalize_pair(left, right)`. -/
def normalizePair (left right : List ℚ) : Except Err (List ℚ × List ℚ) := do
  let ml ← npMax (left.map (fun v => |v|))
  let mr ← npMax (right.map (fun v => |v|))
  let peak := max (max ml mr) epsQ
  if 1 < peak then
    let scale := 1 / peak
    pure (left.map (fun v => v * scale), right.map (fun v => v * scale))
  else
    pure (left, right)

/-- Pure joint peak of a channel with floor `0` (used to state the
normalization invariant). -/
def peakAbs (l : List ℚ) : ℚ := l.foldr (fun x m => max |x| m) 0

/-- Source: `np.clip(x, -1.0, 1.0)` on one scalar. -/
def clip1 (x : ℚ) : ℚ := min (max x (-1)) 1

/-- Source: `.astype(np.int16)`: wrap an integer into the int16 range. -/
def toInt16 (z : ℤ) : ℤ := (z + 32768) % 65536 - 32768

/-- Source: `_quantize_i16(x)`. -/
def quantizeI16 (l : List ℚ) : List ℤ :=
  l.map (fun x => toInt16 (pyRound (clip1 x * 32767)))

/-- Python slice `l[:k]` for an arbitrary integer bound `k`. -/
def pySliceTo (l : List ℚ) (k : Int) : List ℚ :=
  if 0 ≤ k then l.take k.toNat
  else l.take ((l.length : Int) + k).toNat

/-- Source: the tap-fitting block inside `convert`
(`if l.size >= taps: l = l[:taps] else: l = np.pad(l, (0, taps - l.size))`).
In the pad branch `taps - l.size > 0`, so `np.pad` cannot fail. -/
def fitTaps (taps : Int) (l : List ℚ) : List ℚ :=
  if taps ≤ (l.length : Int) then pySliceTo l taps
  else l ++ List.replicate (taps - (l.length : Int)).toNat 0

/-- The three arrays `convert` reads from the SOFA file:
`/SourcePosition` (M × C), `/Data.IR` (M × R × N) and `/Data.SamplingRate`. -/
structure Dataset where
  sourcePos : List (List ℚ)
  ir : List (List (List ℚ))
  sr : Int
deriving Repr

/-- The conversion parameters of `convert`. -/
structure Params where
  targetSr : Int
  taps : Int
  azStep : ℚ
  elStep : ℚ
deriving Repr

/-- One value of `entries_by_bin`: the retained measurement's original
(unwrapped) azimuth, elevation and raw stereo response. -/
structure RawEntry where
  az : ℚ
  el : ℚ
  left : List ℚ
  right : List ℚ
deriving DecidableEq, Repr

/-- One element of `compact_entries`. -/
structure CompactEntry where
  az : ℚ
  el : ℚ
  left : List ℤ
  right : List ℤ
deriving DecidableEq, Repr

/-- Source: the shape validation at the top of `convert`.  In this model the
number of axes is fixed by the nesting type, and `shape[1]` is the length of
the first row, as for a rectangular numpy array. -/
def validate (ds : Dataset) : Except Err Unit :=
  if (nthD ds.sourcePos 0 []).length < 2 then .error .shapeSourcePos
  else if (nthD ds.ir 0 []).length < 2 then .error .shapeIR
  else .ok ()

/-- Key of measurement `i`: read row `i` of `source_pos` (an out-of-range
row raises `IndexError`, since the loop bound `m` comes from `ir.shape`),
then apply `_bin_key` to its first two columns. -/
def measKey (ds : Dataset) (p : Params) (i : Nat) : Except Err (Int × Int) :=
  match ds.sourcePos.get? i with
  | none => .error .indexError
  | some row => binKeyE (nthD row 0 0) (nthD row 1 0) p.azStep p.elStep

/-- The tuple `(az, el, ir[i, 0, :], ir[i, 1, :])` stored for measurement
`i`; `i < m = len(ir)` and (validated) `r ≥ 2` keep these accesses in
range. -/
def measRaw (ds : Dataset) (i : Nat) : RawEntry :=
  ⟨nthD (nthD ds.sourcePos i []) 0 0, nthD (nthD ds.sourcePos i []) 1 0,
   nthD (nthD ds.ir i []) 0 [], nthD (nthD ds.ir i []) 1 []⟩

/-- One iteration of the binning loop in `convert`: compute the key, skip if
already present, otherwise insert (`entries_by_bin[key] = ...`). -/
def binStep (ds : Dataset) (p : Params) (acc : List ((Int × Int) × RawEntry))
    (i : Nat) : Except Err (List ((Int × Int) × RawEntry)) := do
  let key ← measKey ds p i
  if (List.lookup key acc).isSome then pure acc
  else pure (acc ++ [(key, measRaw ds i)])

/-- The binning loop over a list of measurement indices. -/
def binFold (ds : Dataset) (p : Params) (acc : List ((Int × Int) × RawEntry)) :
    List Nat → Except Err (List ((Int × Int) × RawEntry))
  | [] => .ok acc
  | i :: rest => do binFold ds p (← binStep ds p acc i) rest

/-- Source: `for i in range(m): ...` filling `entries_by_bin`. -/
def binAll (ds : Dataset) (p : Params) : Except Err (List ((Int × Int) × RawEntry)) :=
  binFold ds p [] (List.range ds.ir.length)

/-- Decidable test used to locate the first measurement with a given key. -/
def hasKey (ds : Dataset) (p : Params) (k : Int × Int) (i : Nat) : Bool :=
  match measKey ds p i with
  | .ok kk => decide (kk = k)
  | .error _ => false

/-- Lexicographic order on bin keys, as Python tuple comparison orders the
keys of `sorted(entries_by_bin.items())`. -/
def keyLexLe (a b : Int × Int) : Prop := a.1 < b.1 ∨ (a.1 = b.1 ∧ a.2 ≤ b.2)

/-- Strict lexicographic order on bin keys. -/
def keyLexLt (a b : Int × Int) : Prop := a.1 < b.1 ∨ (a.1 = b.1 ∧ a.2 < b.2)

/-- Order on binned items by key.  `sorted` compares the full
`(key, value)` tuples, but the keys of a dict are pairwise distinct so the
comparison never reaches the values; ordering by key alone is equivalent. -/
def entLe (a b : (Int × Int) × RawEntry) : Prop := keyLexLe a.1 b.1

instance : DecidableRel keyLexLe :=
  fun a b => inferInstanceAs (Decidable (a.1 < b.1 ∨ (a.1 = b.1 ∧ a.2 ≤ b.2)))

instance : DecidableRel keyLexLt :=
  fun a b => inferInstanceAs (Decidable (a.1 < b.1 ∨ (a.1 = b.1 ∧ a.2 < b.2)))

instance : DecidableRel entLe :=
  fun a b => inferInstanceAs (Decidable (keyLexLe a.1 b.1))

instance : IsTotal ((Int × Int) × RawEntry) entLe := by
  constructor
  intro a b
  unfold entLe keyLexLe
  omega

instance : IsTrans ((Int × Int) × RawEntry) entLe := by
  constructor
  intro a b c
  unfold entLe keyLexLe
  omega

/-- Source: the body of the `for _, (az, el, left, right) in sorted(...)`
loop in `convert`: resample both channels, fit to `taps`, jointly
normalize, quantize. -/
def processEntry (p : Params) (sr : Int) (e : RawEntry) : Except Err CompactEntry := do
  let l ← resample1d e.left sr p.targetSr
  let r ← resample1d e.right sr p.targetSr
  let lf := fitTaps p.taps l
  let rf := fitTaps p.taps r
  let nr ← normalizePair lf rf
  pure ⟨e.az, e.el, quantizeI16 nr.1, quantizeI16 nr.2⟩

/-- Source: the loop appending to `compact_entries`, in sorted order. -/
def processAll (p : Params) (sr : Int) :
    List ((Int × Int) × RawEntry) → Except Err (List CompactEntry)
  | [] => .ok []
  | (_, e) :: rest => do
    let c ← processEntry p sr e
    let cs ← processAll p sr rest
    pure (c :: cs)

/-- Everything `convert` does before opening the output file: validate the
shapes, fill `entries_by_bin`, then process the bins in sorted key order. -/
def computeEntries (ds : Dataset) (p : Params) : Except Err (List CompactEntry) := do
  validate ds
  let bins ← binAll ds p
  processAll p ds.sr (List.insertionSort entLe bins)

/-- Source: `MAGIC = b"HRIRBIN1"` (the ASCII bytes of that tag). -/
def MAGIC : List Nat := [72, 82, 73, 82, 66, 73, 78, 49]

/-- Source: `VERSION = 1`. -/
def VERSION : Nat := 1

/-- Little-endian bytes of a 32-bit unsigned value. -/
def le32 (u : Nat) : List Nat :=
  [u % 256, u / 256 % 256, u / 65536 % 256, u / 16777216 % 256]

/-- Two's-complement 32-bit image of an `int` (what `struct.pack "<i"`
writes for an in-range value). -/
def u32of (v : Int) : Nat := (v % 4294967296).toNat

/-- `struct.pack "<i"` of one in-range int. -/
def le32i (v : Int) : List Nat := le32 (u32of v)

/-- `tobytes()` of one int16 sample, little-endian. -/
def le16i (v : Int) : List Nat :=
  [(v % 65536).toNat % 256, (v % 65536).toNat / 256]

/-- IEEE-754 binary32 bit pattern of a rational, round to nearest, ties to
even (what `struct.pack "<f"` produces from an exact value). -/
def float32bits (q : ℚ) : Nat :=
  if q = 0 then 0
  else
    let s : Nat := if q < 0 then 2147483648 else 0
    let a : ℚ := |q|
    let e : ℤ := Int.log 2 a
    if e < -126 then
      s + (pyRound (a * 2 ^ (149 : ℕ))).toNat
    else
      let m : ℤ := pyRound (a * (2 : ℚ) ^ (23 - e))
      let me : ℤ × ℤ := if m = 16777216 then (8388608, e + 1) else (m, e)
      if 127 < me.2 then s + 2139095040
      else s + (me.2 + 127).toNat * 8388608 + (me.1.toNat - 8388608)

/-- `struct.pack "<f"` of one value. -/
def f32enc (q : ℚ) : List Nat := le32 (float32bits q)

/-- Source: the per-entry writes in `convert`
(`struct.pack("<ff", az, el)` then the two `tobytes()` calls). -/
def encodeEntry (e : CompactEntry) : List Nat :=
  f32enc e.az ++ f32enc e.el ++ (e.left.map le16i).flatten ++ (e.right.map le16i).flatten

/-- Source: everything written to the output file: magic, packed header,
then the entries in order. -/
def encodeFile (targetSr taps : Int) (entries : List CompactEntry) : List Nat :=
  MAGIC ++ le32 VERSION ++ le32i targetSr ++ le32i taps ++
    le32i (entries.length : Int) ++ (entries.map encodeEntry).flatten

/-- Source: `convert(...)`.  `fs0` is the content of the output path before
the run; the first component of the result is its content afterwards.  The
file is opened for writing only after `compact_entries` is fully built, so
an error run leaves `fs0` in place. -/
def convert (ds : Dataset) (p : Params) (fs0 : Option (List Nat)) :
    Option (List Nat) × Except Err (List CompactEntry) :=
  match computeEntries ds p with
  | .error e => (fs0, .error e)
  | .ok entries => (some (encodeFile p.targetSr p.taps entries), .ok entries)

/-- Value of four little-endian bytes. -/
def u32val (b0 b1 b2 b3 : Nat) : Nat := b0 + 256 * b1 + 65536 * b2 + 16777216 * b3

/-- Signed reading of a 32-bit unsigned value. -/
def deI32 (u : Nat) : Int :=
  if u < 2147483648 then (u : Int) else (u : Int) - 4294967296

/-- Modelled from the spec: a parser for the fixed 24-byte header (magic,
`u32` version, `i32` sample rate, `i32` tap count, `i32` entry count, all
little-endian), used to state the header round-trip property. -/
def parseHeader (bs : List Nat) :
    Option (List Nat × Nat × Int × Int × Int) :=
  match bs with
  | m0 :: m1 :: m2 :: m3 :: m4 :: m5 :: m6 :: m7 ::
    v0 :: v1 :: v2 :: v3 :: s0 :: s1 :: s2 :: s3 ::
    t0 :: t1 :: t2 :: t3 :: c0 :: c1 :: c2 :: c3 :: _ =>
    some ([m0, m1, m2, m3, m4, m5, m6, m7], u32val v0 v1 v2 v3,
      deI32 (u32val s0 s1 s2 s3), deI32 (u32val t0 t1 t2 t3),
      deI32 (u32val c0 c1 c2 c3))
  | _ => none

/-- A small valid dataset: one measurement at azimuth 0, elevation 0, two
channels of two samples each, source rate 48000. -/
def ds1 : Dataset := ⟨[[0, 0]], [[[1/2, 1/4], [1/2, 1/4]]], 48000⟩

/-- Two measurements in distinct bins (azimuths 0 and 90). -/
def dsTwo : Dataset :=
  ⟨[[0, 0], [90, 0]],
   [[[1/2, 1/4], [1/2, 1/4]], [[1/4, 1/8], [1/4, 1/8]]], 48000⟩

/-- Two measurements whose azimuths 0 and 1 collide into bin `(0, 0)` at a
3-degree step. -/
def dsDup : Dataset :=
  ⟨[[0, 0], [1, 0]],
   [[[1/2, 1/4], [1/2, 1/4]], [[1/4, 1/8], [1/4, 1/8]]], 48000⟩

/-- A dataset with no arrays at all (shape validation fails). -/
def dsBad : Dataset := ⟨[], [], 48000⟩

/-- Valid parameters: identity resampling, 2 taps, 3-degree bins. -/
def pGood : Params := ⟨48000, 2, 3, 3⟩

theorem le_pyRound {q : ℚ} {n : ℤ} (h : (n : ℚ) ≤ q) : n ≤ pyRound q := by
  have hf : n ≤ ⌊q⌋ := Int.le_floor.mpr h
  unfold pyRound
  split_ifs <;> omega

theorem pyRound_le {q : ℚ} {n : ℤ} (h : q ≤ (n : ℚ)) : pyRound q ≤ n := by
  have hf : ⌊q⌋ ≤ n := by exact_mod_cast (Int.floor_le q).trans h
  have hfl : (⌊q⌋ : ℚ) ≤ q := Int.floor_le q
  unfold pyRound
  split_ifs with h1 h2 h3
  · exact hf
  · have hlt : (⌊q⌋ : ℚ) < (n : ℚ) := by linarith
    have : ⌊q⌋ < n := by exact_mod_cast hlt
    omega
  · exact hf
  · have hhalf : (1 : ℚ)/2 ≤ q - (⌊q⌋ : ℚ) := le_of_not_lt h1
    have hlt : (⌊q⌋ : ℚ) < (n : ℚ) := by linarith
    have : ⌊q⌋ < n := by exact_mod_cast hlt
    omega

theorem toInt16_eq_self {z : ℤ} (h1 : -32768 ≤ z) (h2 : z < 32768) :
    toInt16 z = z := by
  unfold toInt16
  omega

theorem clip1_bounds (x : ℚ) : -1 ≤ clip1 x ∧ clip1 x ≤ 1 := by
  unfold clip1
  constructor
  · exact le_min (le_max_right x (-1)) (by norm_num)
  · exact min_le_right _ _

theorem quantize_elt_bounds (x : ℚ) :
    -32767 ≤ toInt16 (pyRound (clip1 x * 32767)) ∧
      toInt16 (pyRound (clip1 x * 32767)) ≤ 32767 := by
  obtain ⟨hlo, hhi⟩ := clip1_bounds x
  have hq1 : ((-32767 : ℤ) : ℚ) ≤ clip1 x * 32767 := by push_cast; nlinarith
  have hq2 : clip1 x * 32767 ≤ ((32767 : ℤ) : ℚ) := by push_cast; nlinarith
  have hr1 : (-32767 : ℤ) ≤ pyRound (clip1 x * 32767) := le_pyRound hq1
  have hr2 : pyRound (clip1 x * 32767) ≤ (32767 : ℤ) := pyRound_le hq2
  rw [toInt16_eq_self (by omega) (by omega)]
  exact ⟨hr1, hr2⟩

/-- C6: the quantizer clips each sample to `[-1, 1]` before scaling by
32767 and rounding, so every encoded int16 sample lies in
`[-32767, 32767]`; in particular `-32768` never occurs. -/
theorem C6_quantization_bounds (l : List ℚ) (z : ℤ) (hz : z ∈ quantizeI16 l) :
    -32767 ≤ z ∧ z ≤ 32767 ∧ z ≠ -32768 := by
  unfold quantizeI16 at hz
  rw [List.mem_map] at hz
  obtain ⟨x, -, rfl⟩ := hz
  obtain ⟨h1, h2⟩ := quantize_elt_bounds x
  exact ⟨h1, h2, by omega⟩

theorem C6_witness :
    (32767 : ℤ) ∈ quantizeI16 [2, -2, 1/2] ∧
      (-32767 ≤ (32767 : ℤ) ∧ (32767 : ℤ) ≤ 32767 ∧ (32767 : ℤ) ≠ -32768) := by
  have heq : quantizeI16 [2, -2, 1/2] = [32767, -32767, 16384] := by
    norm_num [quantizeI16, clip1, pyRound, toInt16, -Int.self_sub_floor]
  have hm : (32767 : ℤ) ∈ quantizeI16 [2, -2, 1/2] := by
    rw [heq]; simp
  exact ⟨hm, C6_quantization_bounds [2, -2, 1/2] 32767 hm⟩

/-- C2: `convert` opens the output file only after every entry has been
computed, so a run that fails leaves the previous content of the output
path untouched. -/
theorem C2_no_partial_output (ds : Dataset) (p : Params)
    (fs0 : Option (List Nat)) (e : Err)
    (h : (convert ds p fs0).2 = .error e) : (convert ds p fs0).1 = fs0 := by
  unfold convert at h ⊢
  cases hce : computeEntries ds p <;> simp [hce] at h ⊢

theorem C2_witness :
    (convert dsBad pGood (some [7])).2 = .error .shapeSourcePos ∧
      (convert dsBad pGood (some [7])).1 = some [7] :=
  ⟨rfl, C2_no_partial_output dsBad pGood (some [7]) .shapeSourcePos rfl⟩

/-- C1: contrary to the spec, `convert` never validates `taps`,
`az_step_deg` or `el_step_deg`.  With `taps = -1` (non-positive) the run
completes without any error and writes an output file whose entries were
silently truncated by the Python slice `l[:-1]`. -/
theorem C1_no_configuration_error :
    (⟨48000, -1, 3, 3⟩ : Params).taps < 0 ∧
      (convert ds1 ⟨48000, -1, 3, 3⟩ none).2 =
        .ok [⟨0, 0, [16384], [16384]⟩] ∧
      (convert ds1 ⟨48000, -1, 3, 3⟩ none).1 =
        some (encodeFile 48000 (-1) [⟨0, 0, [16384], [16384]⟩]) := by
  have hce : computeEntries ds1 ⟨48000, -1, 3, 3⟩ = .ok [⟨0, 0, [16384], [16384]⟩] := by
    norm_num [computeEntries, validate, binAll, binFold, binStep, measKey, measRaw,
      binKeyE, nthD, wrapAz, pyFmod, processAll, processEntry, resample1d, fitTaps,
      pySliceTo, normalizePair, npMax, quantizeI16, clip1, toInt16, epsQ, pyRound, ds1,
      -Int.self_sub_floor, -Prod.mk_zero_zero,
      List.insertionSort, List.orderedInsert, Bind.bind, Except.bind, Pure.pure,
      Except.pure, List.lookup, abs_of_nonneg, abs_of_nonpos, sup_of_le_left,
      sup_of_le_right, inf_of_le_left, inf_of_le_right, max_eq_left, max_eq_right,
      min_eq_left, min_eq_right]
  refine ⟨by decide, ?_, ?_⟩ <;> simp [convert, hce]

theorem peakAbs_map_mul (s : ℚ) (hs : 0 ≤ s) (l : List ℚ) :
    peakAbs (l.map (fun v => v * s)) = peakAbs l * s := by
  induction l with
  | nil => simp [peakAbs]
  | cons x xs ih =>
    simp only [List.map_cons, peakAbs, List.foldr_cons] at ih ⊢
    rw [ih, abs_mul, abs_of_nonneg hs, max_mul_of_nonneg _ _ hs]

/-- C8: the normalizer computes one joint peak
`max(max(abs(left)), max(abs(right)), 1e-9)`; when it exceeds 1 it scales
both channels by the same factor `1/peak` (preserving the ratio of the
channel peaks, stated cross-multiplied), and otherwise passes both channels
through unchanged. -/
theorem C8_joint_normalization (l r l2 r2 : List ℚ) (ml mr : ℚ)
    (hml : npMax (l.map (fun v => |v|)) = .ok ml)
    (hmr : npMax (r.map (fun v => |v|)) = .ok mr)
    (hn : normalizePair l r = .ok (l2, r2)) :
    (max (max ml mr) epsQ ≤ 1 → l2 = l ∧ r2 = r) ∧
    (1 < max (max ml mr) epsQ →
      l2 = l.map (fun v => v * (1 / max (max ml mr) epsQ)) ∧
      r2 = r.map (fun v => v * (1 / max (max ml mr) epsQ)) ∧
      peakAbs l2 * peakAbs r = peakAbs l * peakAbs r2) := by
  unfold normalizePair at hn
  rw [hml, hmr] at hn
  simp only [Bind.bind, Except.bind, Pure.pure, Except.pure] at hn
  constructor
  · intro hle
    rw [if_neg (not_lt.mpr hle)] at hn
    simp only [Except.ok.injEq, Prod.mk.injEq] at hn
    exact ⟨hn.1.symm, hn.2.symm⟩
  · intro hlt
    rw [if_pos hlt] at hn
    simp only [Except.ok.injEq, Prod.mk.injEq] at hn
    have hs : 0 ≤ 1 / max (max ml mr) epsQ := by positivity
    refine ⟨hn.1.symm, hn.2.symm, ?_⟩
    rw [← hn.1, ← hn.2, peakAbs_map_mul _ hs, peakAbs_map_mul _ hs]
    ring

theorem C8_witness :
    normalizePair [2] [1] = .ok ([1], [1/2]) ∧
      peakAbs [(1 : ℚ)] * peakAbs [(1 : ℚ)] =
        peakAbs [(2 : ℚ)] * peakAbs [(1/2 : ℚ)] := by
  have hml : npMax ([(2 : ℚ)].map (fun v => |v|)) = .ok 2 := by
    norm_num [npMax, abs_of_nonneg]
  have hmr : npMax ([(1 : ℚ)].map (fun v => |v|)) = .ok 1 := by
    norm_num [npMax, abs_of_nonneg]
  have hn : normalizePair [2] [1] = .ok ([1], [1/2]) := by
    norm_num [normalizePair, npMax, epsQ, Bind.bind, Except.bind, Pure.pure, Except.pure,
      abs_of_nonneg, sup_of_le_left, inf_of_le_left, max_eq_left, min_eq_left]
  have hpk : (1 : ℚ) < max (max 2 1) epsQ := by
    norm_num [epsQ, max_eq_left]
  have h := (C8_joint_normalization [2] [1] [1] [1/2] 2 1 hml hmr hn).2 hpk
  exact ⟨hn, h.2.2⟩

theorem nthD_map_range (f : Nat → ℚ) (n k : Nat) (hk : k < n) :
    nthD ((List.range n).map f) k 0 = f k := by
  unfold nthD
  rw [List.get?_map, List.get?_range hk]
  rfl

theorem interpAt_formula (xs : List ℚ) (t : ℚ) (i : Nat)
    (h1 : (i : ℚ) ≤ t) (h2 : t ≤ (i : ℚ) + 1) (h3 : i + 1 < xs.length) :
    interpAt xs t =
      nthD xs i 0 + (t - (i : ℚ)) * (nthD xs (i + 1) 0 - nthD xs i 0) := by
  have h0 : 0 ≤ t := le_trans (by positivity) h1
  unfold interpAt
  split_ifs with ha hb
  · have ht : t = 0 := le_antisymm ha h0
    have hi0 : (i : ℚ) = 0 := le_antisymm (by rw [← ht]; exact h1) (by positivity)
    have hi : i = 0 := by exact_mod_cast hi0
    subst hi
    rw [ht]
    ring
  · have hlen : ((i : ℚ) + 1) + 1 ≤ (xs.length : ℚ) := by
      have : ((i : ℕ) + 2 : ℕ) ≤ xs.length := h3
      have h4 : (((i : ℕ) + 2 : ℕ) : ℚ) ≤ ((xs.length : ℕ) : ℚ) := by exact_mod_cast this
      push_cast at h4
      linarith
    have ht : t = (i : ℚ) + 1 := le_antisymm h2 (by linarith)
    have hlen2 : xs.length = i + 2 := by
      have hq : (xs.length : ℚ) = (i : ℚ) + 2 := by linarith [hb, ht.symm ▸ h2]
      exact_mod_cast hq
    have hn : xs.length - 1 = i + 1 := by omega
    rw [hn, ht]
    ring
  · have hl : (i : ℤ) ≤ ⌊t⌋ := Int.le_floor.mpr (by exact_mod_cast h1)
    have hr2 : ⌊t⌋ ≤ (i : ℤ) + 1 := by
      have h2i : t ≤ (((i : ℤ) + 1 : ℤ) : ℚ) := by push_cast; linarith
      have := Int.floor_le_floor h2i
      simpa using this
    rcases (by omega : ⌊t⌋ = (i : ℤ) ∨ ⌊t⌋ = (i : ℤ) + 1) with hfl | hfl
    · have htn : (⌊t⌋).toNat = i := by omega
      rw [htn]
    · have hge : ((i : ℚ) + 1) ≤ t := by
        have := Int.floor_le t
        rw [hfl] at this
        push_cast at this
        linarith
      have ht : t = (i : ℚ) + 1 := le_antisymm h2 hge
      have htn : (⌊t⌋).toNat = i + 1 := by omega
      rw [htn, ht]
      push_cast
      ring

/-- C9: the resampler passes the input through when the rates are equal,
maps an empty input to an empty output, and otherwise emits
`max(1, round(N * dst/src))` samples, sample `k` being the linear
interpolation of the input at the uniform coordinate
`k * (N - 1) / (out_len - 1)`. -/
theorem C9_resampler (xs : List ℚ) (srcSr dstSr : Int) :
    (srcSr = dstSr → resample1d xs srcSr dstSr = .ok xs) ∧
    (xs = [] → resample1d xs srcSr dstSr = .ok []) ∧
    (srcSr ≠ dstSr → srcSr ≠ 0 → xs ≠ [] →
      ∃ out, resample1d xs srcSr dstSr = .ok out ∧
        out.length =
          (max 1 (pyRound ((xs.length : ℚ) * ((dstSr : ℚ) / (srcSr : ℚ))))).toNat ∧
        1 ≤ out.length ∧
        ∀ k i : Nat, k < out.length → 2 ≤ out.length →
          (i : ℚ) ≤ (k : ℚ) * ((xs.length : ℚ) - 1) / ((out.length : ℚ) - 1) →
          (k : ℚ) * ((xs.length : ℚ) - 1) / ((out.length : ℚ) - 1) ≤ (i : ℚ) + 1 →
          i + 1 < xs.length →
          nthD out k 0 =
            nthD xs i 0 +
              ((k : ℚ) * ((xs.length : ℚ) - 1) / ((out.length : ℚ) - 1) - (i : ℚ)) *
                (nthD xs (i + 1) 0 - nthD xs i 0)) := by
  refine ⟨?_, ?_, ?_⟩
  · intro h
    unfold resample1d
    rw [if_pos h]
  · intro h
    subst h
    unfold resample1d
    split_ifs <;> simp_all
  · intro hne hz hxe
    have hlz : ¬ xs.length = 0 := fun h => hxe (List.length_eq_zero.mp h)
    have hve : resample1d xs srcSr dstSr =
        .ok ((List.range
            (max 1 (pyRound ((xs.length : ℚ) * ((dstSr : ℚ) / (srcSr : ℚ))))).toNat).map
          (fun k => interpAt xs
            (linspaceAt xs.length
              (max 1 (pyRound ((xs.length : ℚ) * ((dstSr : ℚ) / (srcSr : ℚ))))).toNat k))) := by
      unfold resample1d
      rw [if_neg hne, if_neg hlz, if_neg hz]
    refine ⟨_, hve, by simp, ?_, ?_⟩
    · simp only [List.length_map, List.length_range]
      have h1 : (1 : ℤ) ≤ max 1 (pyRound ((xs.length : ℚ) * ((dstSr : ℚ) / (srcSr : ℚ)))) :=
        le_max_left _ _
      omega
    · intro k i hk h2len hi1 hi2 hi3
      simp only [List.length_map, List.length_range] at hk h2len hi1 hi2 ⊢
      rw [nthD_map_range _ _ _ hk]
      unfold linspaceAt
      rw [if_neg (by omega)]
      exact interpAt_formula xs _ i hi1 hi2 hi3

theorem C9_witness :
    ((resample1d [(1 : ℚ), 3] 1 2).map (fun l => l.length) = .ok 4) ∧
      ((resample1d [(1 : ℚ), 3] 1 2).map (fun l => nthD l 1 0) = .ok (5/3)) := by
  obtain ⟨out, h1, h2, h3, h4⟩ :=
    (C9_resampler [(1 : ℚ), 3] 1 2).2.2 (by decide) (by decide) (by simp)
  have hpr : pyRound ((([(1 : ℚ), 3] : List ℚ).length : ℚ) * (((2 : ℤ) : ℚ) / ((1 : ℤ) : ℚ))) = 4 := by
    norm_num [pyRound, -Int.self_sub_floor]
  have hol : out.length = 4 := by
    rw [h2, hpr]
    decide
  have h5 := h4 1 0 (by omega) (by omega)
    (by rw [hol]; norm_num) (by rw [hol]; norm_num) (by simp)
  have hA : nthD [(1 : ℚ), 3] 0 0 = 1 := rfl
  have hB : nthD [(1 : ℚ), 3] 1 0 = 3 := rfl
  rw [hol] at h5
  norm_num [hA, hB] at h5
  rw [h1]
  constructor
  · simp [Except.map, hol]
  · simp only [Except.map]
    exact congrArg Except.ok h5

/-- C10: with unequal, valid rates and a nonempty input, when the rounded
output length comes to at most one sample, the resampler returns exactly
one sample: the first input sample (the implementation resolves the
`out_len = 1` edge by sampling at coordinate 0). -/
theorem C10_single_sample (x : ℚ) (xs : List ℚ) (srcSr dstSr : Int)
    (hne : srcSr ≠ dstSr) (hz : srcSr ≠ 0)
    (hr : pyRound (((x :: xs).length : ℚ) * ((dstSr : ℚ) / (srcSr : ℚ))) ≤ 1) :
    resample1d (x :: xs) srcSr dstSr = .ok [x] := by
  unfold resample1d
  rw [if_neg hne, if_neg (by simp), if_neg hz]
  have ho : (max 1 (pyRound (((x :: xs).length : ℚ) * ((dstSr : ℚ) / (srcSr : ℚ))))).toNat = 1 := by
    rw [max_eq_left hr]
    rfl
  rw [ho]
  simp [List.range_succ, linspaceAt, interpAt, nthD]

theorem C10_witness : resample1d [(5 : ℚ), 7] 4 1 = .ok [5] := by
  apply C10_single_sample 5 [7] 4 1 (by decide) (by decide)
  norm_num [pyRound, -Int.self_sub_floor]

theorem fitTaps_length (taps : Int) (h : 0 ≤ taps) (l : List ℚ) :
    (fitTaps taps l).length = taps.toNat := by
  unfold fitTaps pySliceTo
  split_ifs <;>
    simp only [List.length_take, List.length_append, List.length_replicate] <;>
    omega

theorem normalizePair_lengths (a b a2 b2 : List ℚ)
    (h : normalizePair a b = .ok (a2, b2)) :
    a2.length = a.length ∧ b2.length = b.length := by
  unfold normalizePair at h
  cases ha : npMax (a.map (fun v => |v|)) with
  | error e => rw [ha] at h; simp [Bind.bind, Except.bind] at h
  | ok ml =>
    cases hb : npMax (b.map (fun v => |v|)) with
    | error e => rw [ha, hb] at h; simp [Bind.bind, Except.bind] at h
    | ok mr =>
      rw [ha, hb] at h
      simp only [Bind.bind, Except.bind, Pure.pure, Except.pure] at h
      split_ifs at h <;>
        simp only [Except.ok.injEq, Prod.mk.injEq] at h <;>
        rw [← h.1, ← h.2] <;> simp

theorem processEntry_ok (p : Params) (sr : Int) (e : RawEntry) (c : CompactEntry)
    (h : processEntry p sr e = .ok c) (ht : 0 ≤ p.taps) :
    c.az = e.az ∧ c.el = e.el ∧
      c.left.length = p.taps.toNat ∧ c.right.length = p.taps.toNat := by
  unfold processEntry at h
  cases hl : resample1d e.left sr p.targetSr with
  | error e2 => rw [hl] at h; simp [Bind.bind, Except.bind] at h
  | ok l =>
    cases hr : resample1d e.right sr p.targetSr with
    | error e2 => rw [hl, hr] at h; simp [Bind.bind, Except.bind] at h
    | ok r =>
      rw [hl, hr] at h
      simp only [Bind.bind, Except.bind] at h
      cases hn : normalizePair (fitTaps p.taps l) (fitTaps p.taps r) with
      | error e2 => rw [hn] at h; simp at h
      | ok nr =>
        rw [hn] at h
        simp only [Pure.pure, Except.pure, Except.ok.injEq] at h
        obtain ⟨n1, n2⟩ := normalizePair_lengths _ _ _ _ hn
        subst h
        refine ⟨rfl, rfl, ?_, ?_⟩ <;>
          simp [quantizeI16, n1, n2, fitTaps_length p.taps ht]

theorem processAll_mem (p : Params) (sr : Int) :
    ∀ (l : List ((Int × Int) × RawEntry)) (cs : List CompactEntry),
      processAll p sr l = .ok cs → ∀ c ∈ cs, ∃ ke ∈ l, processEntry p sr ke.2 = .ok c := by
  intro l
  induction l with
  | nil => intro cs h c hc; simp [processAll] at h; subst h; simp at hc
  | cons ke rest ih =>
    intro cs h c hc
    obtain ⟨k0, e0⟩ := ke
    unfold processAll at h
    cases hpe : processEntry p sr e0 with
    | error e2 => rw [hpe] at h; simp [Bind.bind, Except.bind] at h
    | ok c0 =>
      rw [hpe] at h
      simp only [Bind.bind, Except.bind] at h
      cases hpa : processAll p sr rest with
      | error e2 => rw [hpa] at h; simp at h
      | ok cs0 =>
        rw [hpa] at h
        simp only [Pure.pure, Except.pure, Except.ok.injEq] at h
        subst h
        rcases List.mem_cons.mp hc with hc0 | hcs
        · exact ⟨(k0, e0), List.mem_cons_self _ _, hc0 ▸ hpe⟩
        · obtain ⟨ke2, hke2, hpe2⟩ := ih cs0 hpa c hcs
          exact ⟨ke2, List.mem_cons_of_mem _ hke2, hpe2⟩

theorem processAll_length (p : Params) (sr : Int) :
    ∀ (l : List ((Int × Int) × RawEntry)) (cs : List CompactEntry),
      processAll p sr l = .ok cs → cs.length = l.length := by
  intro l
  induction l with
  | nil => intro cs h; simp [processAll] at h; subst h; rfl
  | cons ke rest ih =>
    intro cs h
    obtain ⟨k0, e0⟩ := ke
    unfold processAll at h
    cases hpe : processEntry p sr e0 with
    | error e2 => rw [hpe] at h; simp [Bind.bind, Except.bind] at h
    | ok c0 =>
      rw [hpe] at h
      simp only [Bind.bind, Except.bind] at h
      cases hpa : processAll p sr rest with
      | error e2 => rw [hpa] at h; simp at h
      | ok cs0 =>
        rw [hpa] at h
        simp only [Pure.pure, Except.pure, Except.ok.injEq] at h
        subst h
        simp [ih cs0 hpa]

theorem computeEntries_ok (ds : Dataset) (p : Params) (entries : List CompactEntry)
    (h : computeEntries ds p = .ok entries) :
    ∃ bins, validate ds = .ok () ∧ binAll ds p = .ok bins ∧
      processAll p ds.sr (List.insertionSort entLe bins) = .ok entries := by
  unfold computeEntries at h
  cases hv : validate ds with
  | error e => rw [hv] at h; simp [Bind.bind, Except.bind] at h
  | ok u =>
    cases u
    rw [hv] at h
    simp only [Bind.bind, Except.bind] at h
    cases hb : binAll ds p with
    | error e => rw [hb] at h; simp at h
    | ok bins =>
      rw [hb] at h
      exact ⟨bins, rfl, rfl, h⟩

/-- C7: with a positive `taps` every output entry carries exactly `taps`
samples per channel; the tap fitter truncates a long response to its first
`taps` samples and zero-pads a short one at the end. -/
theorem C7_tap_fit (p : Params) (hp : 0 < p.taps) :
    (∀ ds entries c, computeEntries ds p = .ok entries → c ∈ entries →
      c.left.length = p.taps.toNat ∧ c.right.length = p.taps.toNat) ∧
    (∀ l : List ℚ,
      (fitTaps p.taps l).length = p.taps.toNat ∧
      (p.taps ≤ (l.length : Int) → fitTaps p.taps l = l.take p.taps.toNat) ∧
      ((l.length : Int) < p.taps →
        fitTaps p.taps l = l ++ List.replicate (p.taps.toNat - l.length) 0)) := by
  constructor
  · intro ds entries c hce hc
    obtain ⟨bins, -, -, hpa⟩ := computeEntries_ok ds p entries hce
    obtain ⟨ke, -, hpe⟩ := processAll_mem p ds.sr _ entries hpa c hc
    obtain ⟨-, -, h3, h4⟩ := processEntry_ok p ds.sr ke.2 c hpe (le_of_lt hp)
    exact ⟨h3, h4⟩
  · intro l
    refine ⟨fitTaps_length p.taps (le_of_lt hp) l, ?_, ?_⟩
    · intro hle
      unfold fitTaps pySliceTo
      rw [if_pos hle, if_pos (le_of_lt hp)]
    · intro hlt
      unfold fitTaps
      rw [if_neg (not_le.mpr hlt)]
      have : (p.taps - (l.length : Int)).toNat = p.taps.toNat - l.length := by omega
      rw [this]

theorem C7_witness :
    ((⟨0, 0, [16384, 8192], [16384, 8192]⟩ : CompactEntry).left.length = (2 : Int).toNat ∧
      (⟨0, 0, [16384, 8192], [16384, 8192]⟩ : CompactEntry).right.length = (2 : Int).toNat) ∧
      (fitTaps 2 [(1 : ℚ)]).length = (2 : Int).toNat := by
  have hce : computeEntries ds1 pGood = .ok [⟨0, 0, [16384, 8192], [16384, 8192]⟩] := by
    have ht : Int.toNat 2 = 2 := rfl
    norm_num [computeEntries, validate, binAll, binFold, binStep, measKey, measRaw,
      binKeyE, nthD, wrapAz, pyFmod, processAll, processEntry, resample1d, fitTaps,
      pySliceTo, normalizePair, npMax, quantizeI16, clip1, toInt16, epsQ, pyRound, ds1,
      pGood, -Int.self_sub_floor, -Prod.mk_zero_zero, ht,
      List.insertionSort, List.orderedInsert, Bind.bind, Except.bind, Pure.pure,
      Except.pure, List.lookup, abs_of_nonneg, abs_of_nonpos, sup_of_le_left,
      sup_of_le_right, inf_of_le_left, inf_of_le_right, max_eq_left, max_eq_right,
      min_eq_left, min_eq_right]
  constructor
  · exact (C7_tap_fit pGood (by decide)).1 ds1 _ _ hce (by simp)
  · exact ((C7_tap_fit pGood (by decide)).2 [(1 : ℚ)]).1

theorem lookup_append (k : Int × Int) (l1 l2 : List ((Int × Int) × RawEntry)) :
    List.lookup k (l1 ++ l2) =
      match List.lookup k l1 with
      | some v => some v
      | none => List.lookup k l2 := by
  induction l1 with
  | nil => simp [List.lookup]
  | cons a t ih =>
    obtain ⟨ka, va⟩ := a
    simp only [List.cons_append, List.lookup]
    cases h : (k == ka) <;> simp [ih]

theorem lookup_none_iff (k : Int × Int) (l : List ((Int × Int) × RawEntry)) :
    List.lookup k l = none ↔ k ∉ l.map Prod.fst := by
  induction l with
  | nil => simp [List.lookup]
  | cons a t ih =>
    obtain ⟨ka, va⟩ := a
    simp only [List.lookup, List.map_cons, List.mem_cons]
    cases h : (k == ka) with
    | false =>
      have hne : k ≠ ka := by simpa using h
      simp [hne, ih]
    | true =>
      have heq : k = ka := by simpa using h
      simp [heq]

theorem binStep_cases (ds : Dataset) (p : Params)
    (acc : List ((Int × Int) × RawEntry)) (i : Nat)
    (acc2 : List ((Int × Int) × RawEntry)) (h : binStep ds p acc i = .ok acc2) :
    ∃ k, measKey ds p i = .ok k ∧
      (((List.lookup k acc).isSome = true ∧ acc2 = acc) ∨
        (List.lookup k acc = none ∧ acc2 = acc ++ [(k, measRaw ds i)])) := by
  unfold binStep at h
  cases hk : measKey ds p i with
  | error e => rw [hk] at h; simp [Bind.bind, Except.bind] at h
  | ok k =>
    rw [hk] at h
    simp only [Bind.bind, Except.bind] at h
    refine ⟨k, rfl, ?_⟩
    by_cases hl : (List.lookup k acc).isSome = true
    · rw [if_pos hl] at h
      simp only [Pure.pure, Except.pure, Except.ok.injEq] at h
      exact Or.inl ⟨hl, h.symm⟩
    · rw [if_neg hl] at h
      simp only [Pure.pure, Except.pure, Except.ok.injEq] at h
      exact Or.inr ⟨Option.not_isSome_iff_eq_none.mp hl, h.symm⟩

theorem binFold_cons (ds : Dataset) (p : Params)
    (acc : List ((Int × Int) × RawEntry)) (i : Nat) (rest : List Nat) :
    binFold ds p acc (i :: rest) =
      (binStep ds p acc i) >>= fun a => binFold ds p a rest := rfl

theorem binFold_keep (ds : Dataset) (p : Params) (k : Int × Int) (v : RawEntry) :
    ∀ (l : List Nat) (acc bins : List ((Int × Int) × RawEntry)),
      binFold ds p acc l = .ok bins →
      List.lookup k acc = some v → List.lookup k bins = some v := by
  intro l
  induction l with
  | nil =>
    intro acc bins h hv
    unfold binFold at h
    simp only [Except.ok.injEq] at h
    exact h ▸ hv
  | cons i rest ih =>
    intro acc bins h hv
    rw [binFold_cons] at h
    cases hs : binStep ds p acc i with
    | error e => rw [hs] at h; simp [Bind.bind, Except.bind] at h
    | ok acc1 =>
      rw [hs] at h
      simp only [Bind.bind, Except.bind] at h
      obtain ⟨k2, hk2, hcase⟩ := binStep_cases ds p acc i acc1 hs
      rcases hcase with ⟨-, rfl⟩ | ⟨hnone, rfl⟩
      · exact ih _ bins h hv
      · apply ih _ bins h
        rw [lookup_append, hv]

theorem binFold_first (ds : Dataset) (p : Params) (k : Int × Int) :
    ∀ (l : List Nat) (acc bins : List ((Int × Int) × RawEntry)),
      binFold ds p acc l = .ok bins →
      List.lookup k acc = none →
      List.lookup k bins = (l.find? (hasKey ds p k)).map (fun i => measRaw ds i) := by
  intro l
  induction l with
  | nil =>
    intro acc bins h hn
    unfold binFold at h
    simp only [Except.ok.injEq] at h
    simp [List.find?, ← h, hn]
  | cons i rest ih =>
    intro acc bins h hn
    rw [binFold_cons] at h
    cases hs : binStep ds p acc i with
    | error e => rw [hs] at h; simp [Bind.bind, Except.bind] at h
    | ok acc1 =>
      rw [hs] at h
      simp only [Bind.bind, Except.bind] at h
      obtain ⟨ki, hki, hcase⟩ := binStep_cases ds p acc i acc1 hs
      by_cases hkk : ki = k
      · subst hkk
        have hhk : hasKey ds p ki i = true := by
          unfold hasKey
          rw [hki]
          simp
        rw [List.find?_cons_of_pos _ hhk]
        simp only [Option.map_some']
        rcases hcase with ⟨hsome, rfl⟩ | ⟨hnone2, rfl⟩
        · rw [hn] at hsome
          simp at hsome
        · apply binFold_keep ds p ki (measRaw ds i) rest _ bins h
          rw [lookup_append, hn]
          simp [List.lookup]
      · have hhk : hasKey ds p k i = false := by
          unfold hasKey
          rw [hki]
          simp [hkk]
        rw [List.find?_cons_of_neg _ (by simp [hhk])]
        rcases hcase with ⟨hsome, rfl⟩ | ⟨hnone2, rfl⟩
        · exact ih _ bins h hn
        · apply ih _ bins h
          rw [lookup_append, hn]
          have hne : (k == ki) = false := by
            simp
            exact fun he => hkk he.symm
          simp [List.lookup, hne]

theorem binFold_nodup (ds : Dataset) (p : Params) :
    ∀ (l : List Nat) (acc bins : List ((Int × Int) × RawEntry)),
      binFold ds p acc l = .ok bins →
      (acc.map Prod.fst).Nodup → (bins.map Prod.fst).Nodup := by
  intro l
  induction l with
  | nil =>
    intro acc bins h hnd
    unfold binFold at h
    simp only [Except.ok.injEq] at h
    exact h ▸ hnd
  | cons i rest ih =>
    intro acc bins h hnd
    rw [binFold_cons] at h
    cases hs : binStep ds p acc i with
    | error e => rw [hs] at h; simp [Bind.bind, Except.bind] at h
    | ok acc1 =>
      rw [hs] at h
      simp only [Bind.bind, Except.bind] at h
      obtain ⟨ki, hki, hcase⟩ := binStep_cases ds p acc i acc1 hs
      rcases hcase with ⟨-, rfl⟩ | ⟨hnone, rfl⟩
      · exact ih _ bins h hnd
      · apply ih _ bins h
        have hnotin : ki ∉ acc.map Prod.fst := (lookup_none_iff ki acc).mp hnone
        rw [List.map_append]
        simp [List.nodup_append, hnd, hnotin]

theorem binFold_stored (ds : Dataset) (p : Params) :
    ∀ (l : List Nat) (acc bins : List ((Int × Int) × RawEntry)),
      binFold ds p acc l = .ok bins →
      (∀ e ∈ acc, binKeyE e.2.az e.2.el p.azStep p.elStep = .ok e.1) →
      ∀ e ∈ bins, binKeyE e.2.az e.2.el p.azStep p.elStep = .ok e.1 := by
  intro l
  induction l with
  | nil =>
    intro acc bins h hall
    unfold binFold at h
    simp only [Except.ok.injEq] at h
    exact h ▸ hall
  | cons i rest ih =>
    intro acc bins h hall
    rw [binFold_cons] at h
    cases hs : binStep ds p acc i with
    | error e => rw [hs] at h; simp [Bind.bind, Except.bind] at h
    | ok acc1 =>
      rw [hs] at h
      simp only [Bind.bind, Except.bind] at h
      obtain ⟨ki, hki, hcase⟩ := binStep_cases ds p acc i acc1 hs
      rcases hcase with ⟨-, rfl⟩ | ⟨hnone, rfl⟩
      · exact ih _ bins h hall
      · apply ih _ bins h
        intro e he
        rcases List.mem_append.mp he with hacc | hnew
        · exact hall e hacc
        · have henew : e = (ki, measRaw ds i) := by simpa using hnew
          subst henew
          unfold measKey at hki
          cases hrw : ds.sourcePos.get? i with
          | none => rw [hrw] at hki; simp at hki
          | some row =>
            rw [hrw] at hki
            have hrow : nthD ds.sourcePos i [] = row := by
              unfold nthD
              rw [hrw]
              rfl
            simpa [measRaw, hrow] using hki

theorem find?_range'_first (pr : Nat → Bool) :
    ∀ (n s i : Nat), s ≤ i → i < s + n → pr i = true →
      (∀ j, s ≤ j → j < i → pr j = false) →
      (List.range' s n).find? pr = some i := by
  intro n
  induction n with
  | zero =>
    intro s i h1 h2 hp hbef
    omega
  | succ m ih =>
    intro s i h1 h2 hp hbef
    rw [List.range'_succ]
    by_cases hsi : s = i
    · subst hsi
      rw [List.find?_cons_of_pos _ hp]
    · have hps : pr s = false := hbef s le_rfl (by omega)
      rw [List.find?_cons_of_neg _ (by simp [hps])]
      exact ih (s + 1) i (by omega) (by omega) hp (fun j hj1 hj2 => hbef j (by omega) hj2)

theorem find?_range_first (pr : Nat → Bool) (m i : Nat) (hi : i < m) (hp : pr i = true)
    (hbef : ∀ j, j < i → pr j = false) : (List.range m).find? pr = some i := by
  rw [List.range_eq_range']
  exact find?_range'_first pr m 0 i (by omega) (by omega) hp (fun j _ hj => hbef j hj)

/-- C4: when several measurements collide into one bin, the retained entry
is exactly the data (azimuth, elevation, both channels) of the
first-encountered measurement: for a colliding pair `i < j` where `i` is
the first index mapping to the bin, the bin holds measurement `i`'s tuple
and measurement `j` is silently dropped. -/
theorem C4_dedup_first_wins (ds : Dataset) (p : Params)
    (bins : List ((Int × Int) × RawEntry)) (k : Int × Int) (i j : Nat)
    (hb : binAll ds p = .ok bins) (hij : i < j) (hj : j < ds.ir.length)
    (hki : measKey ds p i = .ok k) (hkj : measKey ds p j = .ok k)
    (hfirst : ∀ t, t < i → measKey ds p t ≠ .ok k) :
    List.lookup k bins = some (measRaw ds i) := by
  unfold binAll at hb
  have h := binFold_first ds p k (List.range ds.ir.length) [] bins hb (by simp [List.lookup])
  rw [h, find?_range_first (hasKey ds p k) ds.ir.length i (by omega) ?hp ?hbef]
  · simp
  case hp =>
    unfold hasKey
    rw [hki]
    simp
  case hbef =>
    intro t ht
    unfold hasKey
    cases hkt : measKey ds p t with
    | error e => rfl
    | ok kt =>
      have hne : kt ≠ k := fun he => hfirst t ht (he ▸ hkt)
      simp [hne]

theorem C4_witness :
    binAll dsDup pGood = .ok [((0, 0), ⟨0, 0, [1/2, 1/4], [1/2, 1/4]⟩)] ∧
      List.lookup ((0 : Int), (0 : Int)) [((0, 0), ⟨0, 0, [1/2, 1/4], [1/2, 1/4]⟩)] =
        some (measRaw dsDup 0) := by
  have hb : binAll dsDup pGood = .ok [((0, 0), ⟨0, 0, [1/2, 1/4], [1/2, 1/4]⟩)] := by
    have hbe : (((0 : Int), (0 : Int)) == ((0 : Int), (0 : Int))) = true := rfl
    norm_num [binAll, binFold, binStep, measKey, measRaw, binKeyE, nthD,
      wrapAz, pyFmod, pyRound, dsDup, pGood, -Int.self_sub_floor, -Prod.mk_zero_zero,
      hbe, Bind.bind, Except.bind, Pure.pure, Except.pure, List.lookup]
  have hk0 : measKey dsDup pGood 0 = .ok (0, 0) := by
    norm_num [measKey, binKeyE, nthD, wrapAz, pyFmod, pyRound, dsDup, pGood,
      -Int.self_sub_floor, -Prod.mk_zero_zero]
  have hk1 : measKey dsDup pGood 1 = .ok (0, 0) := by
    norm_num [measKey, binKeyE, nthD, wrapAz, pyFmod, pyRound, dsDup, pGood,
      -Int.self_sub_floor, -Prod.mk_zero_zero]
  refine ⟨hb, ?_⟩
  have h := C4_dedup_first_wins dsDup pGood _ (0, 0) 0 1 hb (by omega) (by simp [dsDup])
    hk0 hk1 (fun t ht => absurd ht (Nat.not_lt_zero t))
  exact h

theorem binKeyE_ok_eq (az el s t : ℚ) (k : Int × Int)
    (h : binKeyE az el s t = .ok k) : bkey s t az el = k := by
  unfold binKeyE at h
  split_ifs at h
  simpa [bkey] using h

theorem processEntry_azel (p : Params) (sr : Int) (e : RawEntry) (c : CompactEntry)
    (h : processEntry p sr e = .ok c) : c.az = e.az ∧ c.el = e.el := by
  unfold processEntry at h
  cases hl : resample1d e.left sr p.targetSr with
  | error e2 => rw [hl] at h; simp [Bind.bind, Except.bind] at h
  | ok l =>
    cases hr : resample1d e.right sr p.targetSr with
    | error e2 => rw [hl, hr] at h; simp [Bind.bind, Except.bind] at h
    | ok r =>
      rw [hl, hr] at h
      simp only [Bind.bind, Except.bind] at h
      cases hn : normalizePair (fitTaps p.taps l) (fitTaps p.taps r) with
      | error e2 => rw [hn] at h; simp at h
      | ok nr =>
        rw [hn] at h
        simp only [Pure.pure, Except.pure, Except.ok.injEq] at h
        subst h
        exact ⟨rfl, rfl⟩

theorem processAll_pairwise (p : Params) (sr : Int) :
    ∀ (l : List ((Int × Int) × RawEntry)) (cs : List CompactEntry),
      processAll p sr l = .ok cs →
      ∀ (R : ((Int × Int) × RawEntry) → ((Int × Int) × RawEntry) → Prop)
        (S : CompactEntry → CompactEntry → Prop),
        (∀ a b ca cb, a ∈ l → b ∈ l → R a b →
          processEntry p sr a.2 = .ok ca → processEntry p sr b.2 = .ok cb → S ca cb) →
        l.Pairwise R → cs.Pairwise S := by
  intro l
  induction l with
  | nil =>
    intro cs h R S hcompat hpw
    simp [processAll] at h
    subst h
    exact List.Pairwise.nil
  | cons ke rest ih =>
    intro cs h R S hcompat hpw
    obtain ⟨k0, e0⟩ := ke
    unfold processAll at h
    cases hpe : processEntry p sr e0 with
    | error e2 => rw [hpe] at h; simp [Bind.bind, Except.bind] at h
    | ok c0 =>
      rw [hpe] at h
      simp only [Bind.bind, Except.bind] at h
      cases hpa : processAll p sr rest with
      | error e2 => rw [hpa] at h; simp at h
      | ok cs0 =>
        rw [hpa] at h
        simp only [Pure.pure, Except.pure, Except.ok.injEq] at h
        subst h
        rw [List.pairwise_cons] at hpw ⊢
        constructor
        · intro cb hcb
          obtain ⟨ke2, hke2, hpe2⟩ := processAll_mem p sr rest cs0 hpa cb hcb
          exact hcompat (k0, e0) ke2 c0 cb (List.mem_cons_self _ _)
            (List.mem_cons_of_mem _ hke2) (hpw.1 ke2 hke2) hpe hpe2
        · exact ih cs0 hpa R S
            (fun a b ca cb ha hb => hcompat a b ca cb
              (List.mem_cons_of_mem _ ha) (List.mem_cons_of_mem _ hb))
            hpw.2

/-- C5: the entries emitted by a successful run are in strictly increasing
BinKey order (azimuth bin first, then elevation bin), for every dataset and
parameter choice: the output order comes from the explicit sort of the bin
map, not from the map's iteration order. -/
theorem C5_sorted_output (ds : Dataset) (p : Params) (entries : List CompactEntry)
    (h : computeEntries ds p = .ok entries) :
    entries.Pairwise (fun a b =>
      keyLexLt (bkey p.azStep p.elStep a.az a.el) (bkey p.azStep p.elStep b.az b.el)) := by
  obtain ⟨bins, -, hb, hpa⟩ := computeEntries_ok ds p entries h
  unfold binAll at hb
  have hnodup : (bins.map Prod.fst).Nodup := binFold_nodup ds p _ [] bins hb (by simp)
  have hstored : ∀ e ∈ bins, binKeyE e.2.az e.2.el p.azStep p.elStep = .ok e.1 :=
    binFold_stored ds p _ [] bins hb (by simp)
  have hperm : List.Perm (List.insertionSort entLe bins) bins :=
    List.perm_insertionSort entLe bins
  have hsorted : (List.insertionSort entLe bins).Pairwise entLe :=
    List.sorted_insertionSort entLe bins
  have hnodup2 : ((List.insertionSort entLe bins).map Prod.fst).Nodup :=
    ((hperm.map Prod.fst).nodup_iff).mpr hnodup
  have hstored2 : ∀ e ∈ List.insertionSort entLe bins,
      binKeyE e.2.az e.2.el p.azStep p.elStep = .ok e.1 :=
    fun e he => hstored e (hperm.mem_iff.mp he)
  have hneq : (List.insertionSort entLe bins).Pairwise (fun a b => a.1 ≠ b.1) :=
    List.pairwise_map.mp hnodup2
  have hstrict : (List.insertionSort entLe bins).Pairwise (fun a b => keyLexLt a.1 b.1) := by
    refine (hsorted.and hneq).imp ?_
    rintro a b ⟨hle, hne⟩
    unfold entLe keyLexLe at hle
    unfold keyLexLt
    have hnc : ¬(a.1.1 = b.1.1 ∧ a.1.2 = b.1.2) := by
      intro hc
      exact hne (Prod.ext hc.1 hc.2)
    omega
  refine processAll_pairwise p ds.sr _ entries hpa _ _ ?_ hstrict
  intro a b ca cb ha hb2 hR hpea hpeb
  obtain ⟨haz, hel⟩ := processEntry_azel p ds.sr a.2 ca hpea
  obtain ⟨hbz, hbl⟩ := processEntry_azel p ds.sr b.2 cb hpeb
  rw [haz, hel, hbz, hbl]
  rw [binKeyE_ok_eq _ _ _ _ _ (hstored2 a ha), binKeyE_ok_eq _ _ _ _ _ (hstored2 b hb2)]
  exact hR

theorem C5_witness :
    ([⟨0, 0, [16384, 8192], [16384, 8192]⟩,
      ⟨90, 0, [8192, 4096], [8192, 4096]⟩] : List CompactEntry).Pairwise
      (fun a b => keyLexLt (bkey pGood.azStep pGood.elStep a.az a.el)
        (bkey pGood.azStep pGood.elStep b.az b.el)) := by
  have hbe : (((30 : ℤ), (0 : ℤ)) == ((0 : ℤ), (0 : ℤ))) = false := rfl
  have ht : Int.toNat 2 = 2 := rfl
  have hce : computeEntries dsTwo pGood =
      .ok [⟨0, 0, [16384, 8192], [16384, 8192]⟩, ⟨90, 0, [8192, 4096], [8192, 4096]⟩] := by
    norm_num [computeEntries, validate, binAll, binFold, binStep, measKey, measRaw,
      binKeyE, nthD, wrapAz, pyFmod, processAll, processEntry, resample1d, fitTaps,
      pySliceTo, normalizePair, npMax, quantizeI16, clip1, toInt16, epsQ, pyRound, dsTwo,
      pGood, -Int.self_sub_floor, -Prod.mk_zero_zero, hbe, ht,
      List.insertionSort, List.orderedInsert, Bind.bind, Except.bind, Pure.pure,
      Except.pure, List.lookup, abs_of_nonneg, abs_of_nonpos, sup_of_le_left,
      sup_of_le_right, inf_of_le_left, inf_of_le_right, max_eq_left, max_eq_right,
      min_eq_left, min_eq_right]
  exact C5_sorted_output dsTwo pGood _ hce

theorem i16bytes_length (l : List ℤ) : ((l.map le16i).flatten).length = 2 * l.length := by
  induction l with
  | nil => simp
  | cons x t ih =>
    simp only [List.map_cons, List.flatten_cons, List.length_append, ih, le16i,
      List.length_cons]
    simp
    ring

theorem le32i_roundtrip (v : Int) (h1 : -2147483648 ≤ v) (h2 : v < 2147483648) :
    deI32 (u32val (u32of v % 256) (u32of v / 256 % 256) (u32of v / 65536 % 256)
      (u32of v / 16777216 % 256)) = v := by
  unfold deI32 u32val u32of
  omega

theorem flatten_entries_length (tn : Nat) :
    ∀ (es : List CompactEntry),
      (∀ e ∈ es, e.left.length = tn ∧ e.right.length = tn) →
      ((es.map encodeEntry).flatten).length = es.length * (8 + 4 * tn) := by
  intro es
  induction es with
  | nil => intro h; simp
  | cons e t ih =>
    intro hall
    simp only [List.map_cons, List.flatten_cons, List.length_append]
    rw [ih (fun x hx => hall x (List.mem_cons_of_mem _ hx))]
    obtain ⟨h1, h2⟩ := hall e (List.mem_cons_self _ _)
    have he : (encodeEntry e).length = 8 + 4 * tn := by
      unfold encodeEntry
      rw [List.length_append, List.length_append, List.length_append,
        i16bytes_length, i16bytes_length, h1, h2]
      simp [f32enc, le32]
      ring
    rw [he]
    simp only [List.length_cons]
    ring

/-- C3: the output file is the 8-byte magic, a little-endian `u32` version 1,
`i32` target sample rate, `i32` tap count and `i32` entry count, followed by
the entries, each `8 + 4*taps` bytes (two float32 angles, then `taps` int16
samples per channel) with no padding; parsing the header recovers the magic,
version 1, the requested rate and taps, and the number of unique bins. -/
theorem C3_file_layout (ds : Dataset) (p : Params) (fs0 : Option (List Nat))
    (bins : List ((Int × Int) × RawEntry)) (entries : List CompactEntry)
    (hb : binAll ds p = .ok bins)
    (hc : computeEntries ds p = .ok entries)
    (h1 : 0 ≤ p.targetSr) (h2 : p.targetSr < 2147483648)
    (h3 : 0 < p.taps) (h4 : p.taps < 2147483648)
    (h5 : (entries.length : Int) < 2147483648) :
    (convert ds p fs0).1 = some (encodeFile p.targetSr p.taps entries) ∧
    parseHeader (encodeFile p.targetSr p.taps entries) =
      some (MAGIC, VERSION, p.targetSr, p.taps, (entries.length : Int)) ∧
    (encodeFile p.targetSr p.taps entries).length =
      24 + entries.length * (8 + 4 * p.taps.toNat) ∧
    entries.length = bins.length ∧
    (bins.map Prod.fst).Nodup := by
  obtain ⟨bins2, -, hb2, hpa⟩ := computeEntries_ok ds p entries hc
  rw [hb] at hb2
  injection hb2 with hbe
  subst hbe
  have hlen : ∀ e ∈ entries,
      e.left.length = p.taps.toNat ∧ e.right.length = p.taps.toNat := by
    intro c hcmem
    obtain ⟨ke, -, hpe⟩ := processAll_mem p ds.sr _ entries hpa c hcmem
    obtain ⟨-, -, hl, hr⟩ := processEntry_ok p ds.sr ke.2 c hpe (le_of_lt h3)
    exact ⟨hl, hr⟩
  refine ⟨?_, ?_, ?_, ?_, ?_⟩
  · simp [convert, hc]
  · have hsr := le32i_roundtrip p.targetSr (by omega) h2
    have htp := le32i_roundtrip p.taps (by omega) h4
    have hct := le32i_roundtrip (entries.length : Int) (by omega) h5
    have hv : u32val 1 0 0 0 = 1 := by norm_num [u32val]
    simp [parseHeader, encodeFile, MAGIC, VERSION, le32i, le32,
      List.cons_append, List.nil_append, hsr, htp, hct, hv]
  · unfold encodeFile
    rw [List.length_append, List.length_append, List.length_append, List.length_append,
      List.length_append, flatten_entries_length p.taps.toNat entries hlen]
    have hm : MAGIC.length = 8 := rfl
    have h32 : ∀ u : Nat, (le32 u).length = 4 := fun u => rfl
    have h32i : ∀ v : Int, (le32i v).length = 4 := fun v => rfl
    rw [hm, h32, h32i, h32i, h32i]
  · rw [processAll_length p ds.sr _ entries hpa,
      (List.perm_insertionSort entLe bins).length_eq]
  · unfold binAll at hb
    exact binFold_nodup ds p _ [] bins hb (by simp)

theorem C3_witness :
    parseHeader (encodeFile 48000 2 [⟨0, 0, [16384, 8192], [16384, 8192]⟩]) =
      some (MAGIC, VERSION, 48000, 2, 1) ∧
    (encodeFile 48000 2 [⟨0, 0, [16384, 8192], [16384, 8192]⟩]).length = 40 := by
  have hbe : (((0 : Int), (0 : Int)) == ((0 : Int), (0 : Int))) = true := rfl
  have ht : Int.toNat 2 = 2 := rfl
  have hb : binAll ds1 pGood = .ok [((0, 0), ⟨0, 0, [1/2, 1/4], [1/2, 1/4]⟩)] := by
    norm_num [binAll, binFold, binStep, measKey, measRaw, binKeyE, nthD,
      wrapAz, pyFmod, pyRound, ds1, pGood, -Int.self_sub_floor, -Prod.mk_zero_zero,
      hbe, Bind.bind, Except.bind, Pure.pure, Except.pure, List.lookup]
  have hce : computeEntries ds1 pGood = .ok [⟨0, 0, [16384, 8192], [16384, 8192]⟩] := by
    norm_num [computeEntries, validate, binAll, binFold, binStep, measKey, measRaw,
      binKeyE, nthD, wrapAz, pyFmod, processAll, processEntry, resample1d, fitTaps,
      pySliceTo, normalizePair, npMax, quantizeI16, clip1, toInt16, epsQ, pyRound, ds1,
      pGood, -Int.self_sub_floor, -Prod.mk_zero_zero, ht,
      List.insertionSort, List.orderedInsert, Bind.bind, Except.bind, Pure.pure,
      Except.pure, List.lookup, abs_of_nonneg, abs_of_nonpos, sup_of_le_left,
      sup_of_le_right, inf_of_le_left, inf_of_le_right, max_eq_left, max_eq_right,
      min_eq_left, min_eq_right]
  obtain ⟨-, hp, hl, -, -⟩ := C3_file_layout ds1 pGood none _ _ hb hce
    (by decide) (by decide) (by decide) (by decide) (by norm_num)
  constructor
  · exact hp
  · have hl2 : (encodeFile 48000 2 [⟨0, 0, [16384, 8192], [16384, 8192]⟩]).length =
        24 + 1 * (8 + 4 * (2 : Int).toNat) := hl
    rw [hl2]
    decide
